import Mathlib

/-!
# Verification of the A* search engine (`src/a_star.rs`)

This file shallowly embeds the generic best-first (A*) search engine of
`src/a_star.rs` and proves the specified properties about it.

Embedding notes:
* The Rust trait `State` (methods `heuristic`, `successors`, `is_end`) becomes
  a structure of functions over an abstract node type `S` with decidable
  equality (the Rust trait requires `Eq + Hash`; only equality is semantically
  relevant).
* `u64` costs and weights become `Nat`; the specified properties assume exact
  arithmetic with no overflow.
* The frontier is Rust's `priority_queue::PriorityQueue` with the reversed
  `Priority(cost + heuristic)` wrapper, so popping the maximum-priority item
  pops a minimum estimated-total-cost entry.  That crate is an external
  dependency whose source is not part of this repository, so its two
  operations are modelled from the spec (see `push_or_improve` and `pop_min`
  below); the reversal is folded away by comparing estimated totals directly
  with `≤`.
* The search loop (`while let Some(..) = queue.pop()`) is embedded with an
  explicit fuel parameter; returning `none` means the fuel ran out, which the
  Rust loop cannot observe (it simply runs longer).  All properties are stated
  about terminated runs (`some` results).
* The visited `HashSet<S>` is embedded as the list of first components of the
  accumulator `E : List (S × Nat)`, which additionally records (ghost
  information used only in proofs) the accumulated cost each node was expanded
  with, in reverse chronological order.
-/

set_option autoImplicit false

namespace AStar

/-- The Rust trait `State`: the capability set a domain must implement.
`heuristic` is the admissible estimate, `successors` the weighted out-edges,
`is_end` the goal predicate. -/
structure State (S : Type) where
  heuristic : S → Nat
  successors : S → List (Nat × S)
  is_end : S → Bool

/-- The Rust struct `Entry<S>`: a node together with its accumulated cost and
the path taken from the start node to it. -/
structure Entry (S : Type) where
  cost : Nat
  state : S
  route : List S
  deriving DecidableEq

/-- `Entry::priority` (src/a_star.rs lines 31-35): the estimated total cost
`cost + state.heuristic()`.  The Rust code wraps this in `Priority`, whose
`Ord` reverses the comparison so that the max-queue pops minimal values; the
model keeps the plain value and compares with `≤` in `pop_min`. -/
def Entry.priority {S : Type} (M : State S) (e : Entry S) : Nat :=
  e.cost + M.heuristic e.state

/-- The list of node identities present in a frontier. -/
def statesOf {S : Type} (q : List (Entry S)) : List S :=
  q.map Entry.state

/-- Modelled from the spec: `PriorityQueue::push_increase` on entries keyed by
node identity (Rust `Entry` equality and hash are by `state` only, src lines
37-49).  Its source is the external `priority_queue` crate, absent from this
repository, so the spec's `push_or_improve` wording is followed: if no entry
for this node exists, insert it; if one exists with a better-or-equal
estimated total cost, leave it; if one exists with a strictly worse estimated
total cost, replace it by the candidate. -/
def push_or_improve {S : Type} [DecidableEq S] (M : State S)
    (q : List (Entry S)) (c : Entry S) : List (Entry S) :=
  if c.state ∈ statesOf q then
    q.map fun e => if e.state = c.state ∧ c.priority M < e.priority M then c else e
  else
    q ++ [c]

/-- Modelled from the spec: `PriorityQueue::pop` on the reversed `Priority`
ordering, i.e. the spec's `pop_min`: remove and return an entry with smallest
estimated total cost, or nothing when the frontier is empty.  Ties are broken
towards the earliest-inserted entry (the spec leaves tie-breaking
implementation-defined). -/
def pop_min {S : Type} (M : State S) :
    List (Entry S) → Option (Entry S × List (Entry S))
  | [] => none
  | e :: es =>
    match pop_min M es with
    | none => some (e, [])
    | some (m, rest) =>
      if e.priority M ≤ m.priority M then some (e, es) else some (m, e :: rest)

/-- The body of the `for (delta, next_state) in state.successors()` loop of
`solve` (src lines 68-85), processing one candidate successor: skip it when
already visited, otherwise push-or-improve a candidate entry extending the
popped entry's cost and route. -/
def pushCandidates {S : Type} [DecidableEq S] (M : State S)
    (E : List (S × Nat)) (e : Entry S) :
    List (Nat × S) → List (Entry S) → List (Entry S)
  | [], q => q
  | ws :: l, q =>
    pushCandidates M E e l
      (if ws.2 ∈ E.map Prod.fst then q
       else push_or_improve M q ⟨e.cost + ws.1, ws.2, e.route ++ [ws.2]⟩)

/-- The successor-processing loop of `solve` (src lines 68-85): iterate
`pushCandidates` over all weighted successors of the popped entry. -/
def expandEntry {S : Type} [DecidableEq S] (M : State S)
    (E : List (S × Nat)) (e : Entry S) (q : List (Entry S)) : List (Entry S) :=
  pushCandidates M E e (M.successors e.state) q

/-- The `while let Some(..) = queue.pop()` loop of `solve` (src lines 63-88),
with explicit fuel.  Returns the result (`none` when the fuel ran out) and the
final expansion accumulator `E` (each expanded node with the accumulated cost
it was expanded with, most recent first); the Rust visited set is
`E.map Prod.fst`. -/
def solveLoop {S : Type} [DecidableEq S] (M : State S) :
    Nat → List (Entry S) → List (S × Nat) →
      Option (Except (List S) (Nat × List S)) × List (S × Nat)
  | 0, _, E => (none, E)
  | Nat.succ n, q, E =>
    match pop_min M q with
    | none => (some (Except.error (E.map Prod.fst)), E)
    | some (e, rest) =>
      if M.is_end e.state then (some (Except.ok (e.cost, e.route)), E)
      else
        solveLoop M n (expandEntry M ((e.state, e.cost) :: E) e rest)
          ((e.state, e.cost) :: E)

/-- `solve` (src lines 51-89): seed the frontier with the start entry at cost
0 and route `[start]`, then run the loop.  `Ok (cost, route)` on goal
discovery, `Err visited` on frontier exhaustion, `none` when the fuel ran
out. -/
def solve {S : Type} [DecidableEq S] (M : State S) (fuel : Nat) (start : S) :
    Option (Except (List S) (Nat × List S)) :=
  (solveLoop M fuel [⟨0, start, [start]⟩] []).1

/-- The chronological list of nodes on which `successors` was invoked during
`solve` (one invocation per loop iteration that expands, src line 68). -/
def solveCalls {S : Type} [DecidableEq S] (M : State S) (fuel : Nat) (start : S) :
    List S :=
  ((solveLoop M fuel [⟨0, start, [start]⟩] []).2.map Prod.fst).reverse

/-- `PathCost M s u c`: there is a chain of `successors` edges from `s` to `u`
whose weights sum to `c`. -/
inductive PathCost {S : Type} (M : State S) : S → S → Nat → Prop
  | refl (s : S) : PathCost M s s 0
  | step {s t u : S} {w c : Nat} :
      (w, t) ∈ M.successors s → PathCost M t u c → PathCost M s u (w + c)

/-- An admissible heuristic: never exceeds the cost of any path to a goal. -/
def Admissible {S : Type} (M : State S) : Prop :=
  ∀ s u c, PathCost M s u c → M.is_end u = true → M.heuristic s ≤ c

/-- A consistent heuristic: along every edge, the heuristic drops by at most
the edge weight. -/
def Consistent {S : Type} (M : State S) : Prop :=
  ∀ s w t, (w, t) ∈ M.successors s → M.heuristic s ≤ w + M.heuristic t

/-- `RouteCost M l c`: the list `l` is a nonempty chain of `successors` edges
whose weights sum to `c`. -/
inductive RouteCost {S : Type} (M : State S) : List S → Nat → Prop
  | single (s : S) : RouteCost M [s] 0
  | cons {s t : S} {l : List S} {w c : Nat} :
      (w, t) ∈ M.successors s → RouteCost M (t :: l) c →
      RouteCost M (s :: t :: l) (w + c)

/-- What a uniform-cost (Dijkstra) search returns, following the spec's words:
on success the minimum goal-path cost (with some path), on failure the fact
that no goal is reachable together with the set of reachable nodes. -/
def dijkstraResultSpec {S : Type} (M : State S) (start : S) :
    Except (List S) (Nat × List S) → Prop
  | Except.ok (c, _) =>
      (∃ u, M.is_end u = true ∧ PathCost M start u c) ∧
      ∀ u k, M.is_end u = true → PathCost M start u k → c ≤ k
  | Except.error v =>
      (¬ ∃ u c, M.is_end u = true ∧ PathCost M start u c) ∧
      ∀ s, s ∈ v ↔ ∃ c, PathCost M start s c

/-- The frontier contains at most one entry per distinct node. -/
def NodupStates {S : Type} (q : List (Entry S)) : Prop :=
  (statesOf q).Nodup

/-- Every frontier entry records a genuine route from the start node to its
own node, whose edge weights sum to its accumulated cost. -/
def RouteInv {S : Type} (M : State S) (start : S) (q : List (Entry S)) : Prop :=
  ∀ x ∈ q, RouteCost M x.route x.cost ∧ x.route.head? = some start ∧
    x.route.getLast? = some x.state

/-- Pop monotonicity: the estimated total cost every already-expanded node
was popped with is a lower bound on the estimated total cost of every entry
still in the frontier. -/
def Mono {S : Type} (M : State S) (q : List (Entry S))
    (E : List (S × Nat)) : Prop :=
  ∀ p ∈ E, ∀ x ∈ q, p.2 + M.heuristic p.1 ≤ x.priority M

/-- Every successor of an already-expanded node has been accounted for:
either it was itself expanded within the implied cost bound, or an entry for
it sits in the frontier within the implied cost bound. -/
def ExpandedBounds {S : Type} (M : State S) (q : List (Entry S))
    (E : List (S × Nat)) : Prop :=
  ∀ p ∈ E, ∀ w t, (w, t) ∈ M.successors p.1 →
    (∃ g2, (t, g2) ∈ E ∧ g2 ≤ p.2 + w) ∨
    (∃ x ∈ q, x.state = t ∧ x.cost ≤ p.2 + w)

/-- Every path from the start can be matched, within its cost, starting from
a frontier entry or from an already-expanded node. -/
def ReachInv {S : Type} (M : State S) (start : S) (q : List (Entry S))
    (E : List (S × Nat)) : Prop :=
  ∀ u c, PathCost M start u c →
    (∃ x ∈ q, ∃ r, PathCost M x.state u r ∧ x.cost + r ≤ c) ∨
    (∃ v g r, (v, g) ∈ E ∧ PathCost M v u r ∧ g + r ≤ c)

/-! ## Concrete machines used in scenarios and witnesses -/

/-- Nodes of the 4-node line graph of the spec's concrete scenario. -/
inductive LineNode : Type
  | A | B | C | D
  deriving DecidableEq, Fintype, Repr

/-- The 4-node line graph A→B→C→D with unit weights, heuristic = remaining
hops to D, and goal D. -/
def lineM : State LineNode where
  heuristic := fun s => match s with
    | LineNode.A => 3 | LineNode.B => 2 | LineNode.C => 1 | LineNode.D => 0
  successors := fun s => match s with
    | LineNode.A => [(1, LineNode.B)]
    | LineNode.B => [(1, LineNode.C)]
    | LineNode.C => [(1, LineNode.D)]
    | LineNode.D => []
  is_end := fun s => match s with
    | LineNode.D => true | _ => false

/-- The same line graph with the all-zero heuristic. -/
def lineM0 : State LineNode where
  heuristic := fun _ => 0
  successors := lineM.successors
  is_end := lineM.is_end

/-- Two disconnected nodes: `false` is the start A, `true` is the goal B,
no edges at all. -/
def discM : State Bool where
  heuristic := fun _ => 0
  successors := fun _ => []
  is_end := fun b => b

/-- Nodes of the counterexample graph for admissible-but-inconsistent
heuristics. -/
inductive CexNode : Type
  | S | A | B | G
  deriving DecidableEq, Fintype, Repr

/-- Counterexample graph: S→A (1), S→B (2), A→B (0), B→G (10); goal G.
The heuristic (10 at A, 0 elsewhere) is admissible but not consistent:
the cheapest route to G is S→A→B→G of cost 11, but A's large heuristic makes
the engine expand B first via the direct cost-2 edge, close it, and later
discard the improvement through A because B is already visited. -/
def cexM : State CexNode where
  heuristic := fun s => match s with
    | CexNode.A => 10 | _ => 0
  successors := fun s => match s with
    | CexNode.S => [(1, CexNode.A), (2, CexNode.B)]
    | CexNode.A => [(0, CexNode.B)]
    | CexNode.B => [(10, CexNode.G)]
    | CexNode.G => []
  is_end := fun s => match s with
    | CexNode.G => true | _ => false

/-- The true cost of the cheapest path to the goal `G` from each node of the
counterexample graph (0 when no continuation is needed). -/
def cexLB : CexNode → Nat
  | CexNode.S => 11
  | CexNode.A => 10
  | CexNode.B => 10
  | CexNode.G => 0

/-! ## Basic lemmas about the frontier operations -/

theorem mem_push_or_improve {S : Type} [DecidableEq S] (M : State S)
    (q : List (Entry S)) (c x : Entry S) (h : x ∈ push_or_improve M q c) :
    x ∈ q ∨ x = c := by
  unfold push_or_improve at h
  split at h
  · rcases List.mem_map.mp h with ⟨y, hy, hfy⟩
    by_cases hc : y.state = c.state ∧ c.priority M < y.priority M
    · rw [if_pos hc] at hfy
      exact Or.inr hfy.symm
    · rw [if_neg hc] at hfy
      exact Or.inl (hfy ▸ hy)
  · rcases List.mem_append.mp h with h1 | h1
    · exact Or.inl h1
    · exact Or.inr (List.mem_singleton.mp h1)

theorem statesOf_push_of_mem {S : Type} [DecidableEq S] (M : State S)
    (q : List (Entry S)) (c : Entry S) (h : c.state ∈ statesOf q) :
    statesOf (push_or_improve M q c) = statesOf q := by
  unfold push_or_improve
  rw [if_pos h]
  unfold statesOf
  rw [List.map_map]
  apply List.map_congr_left
  intro x hx
  by_cases hc : x.state = c.state ∧ c.priority M < x.priority M
  · simp only [Function.comp_apply, if_pos hc]
    exact hc.1.symm
  · simp only [Function.comp_apply, if_neg hc]

theorem statesOf_push_of_not_mem {S : Type} [DecidableEq S] (M : State S)
    (q : List (Entry S)) (c : Entry S) (h : c.state ∉ statesOf q) :
    statesOf (push_or_improve M q c) = statesOf q ++ [c.state] := by
  unfold push_or_improve
  rw [if_neg h]
  unfold statesOf
  rw [List.map_append]
  rfl

theorem mem_statesOf_push {S : Type} [DecidableEq S] (M : State S)
    (q : List (Entry S)) (c : Entry S) (s : S) :
    s ∈ statesOf (push_or_improve M q c) ↔ s ∈ statesOf q ∨ s = c.state := by
  by_cases h : c.state ∈ statesOf q
  · rw [statesOf_push_of_mem M q c h]
    constructor
    · exact fun hs => Or.inl hs
    · rintro (hs | rfl)
      · exact hs
      · exact h
  · rw [statesOf_push_of_not_mem M q c h]
    simp

theorem nodupStates_push {S : Type} [DecidableEq S] (M : State S)
    (q : List (Entry S)) (c : Entry S) (h : NodupStates q) :
    NodupStates (push_or_improve M q c) := by
  by_cases hc : c.state ∈ statesOf q
  · unfold NodupStates
    rw [statesOf_push_of_mem M q c hc]
    exact h
  · unfold NodupStates
    rw [statesOf_push_of_not_mem M q c hc]
    simp only [List.nodup_append, List.nodup_singleton]
    exact ⟨h, by simpa using fun hs => hc hs⟩

/-- Improving can only lower the recorded cost of a node already present:
an entry at cost at most `a` survives at cost at most `a`. -/
theorem push_or_improve_cost_le {S : Type} [DecidableEq S] (M : State S)
    (q : List (Entry S)) (c : Entry S) (s : S) (a : Nat)
    (h : ∃ x ∈ q, x.state = s ∧ x.cost ≤ a) :
    ∃ x ∈ push_or_improve M q c, x.state = s ∧ x.cost ≤ a := by
  rcases h with ⟨x, hx, hs, hc⟩
  unfold push_or_improve
  split
  · refine ⟨if x.state = c.state ∧ c.priority M < x.priority M then c else x,
      List.mem_map_of_mem _ hx, ?_⟩
    by_cases hcond : x.state = c.state ∧ c.priority M < x.priority M
    · rw [if_pos hcond]
      have hstate : c.state = s := hcond.1 ▸ hs
      have hlt : c.cost < x.cost := by
        have := hcond.2
        unfold Entry.priority at this
        rw [hcond.1] at this
        omega
      exact ⟨hstate, by omega⟩
    · rw [if_neg hcond]
      exact ⟨hs, hc⟩
  · exact ⟨x, List.mem_append_left _ hx, hs, hc⟩

/-- After pushing a candidate, some entry for its node is present with cost at
most the candidate's cost. -/
theorem push_or_improve_cost_ub {S : Type} [DecidableEq S] (M : State S)
    (q : List (Entry S)) (c : Entry S) :
    ∃ x ∈ push_or_improve M q c, x.state = c.state ∧ x.cost ≤ c.cost := by
  unfold push_or_improve
  split
  case isTrue h =>
    rcases List.mem_map.mp h with ⟨y, hy, hys⟩
    refine ⟨if y.state = c.state ∧ c.priority M < y.priority M then c else y,
      List.mem_map_of_mem _ hy, ?_⟩
    by_cases hcond : y.state = c.state ∧ c.priority M < y.priority M
    · rw [if_pos hcond]
      exact ⟨rfl, le_refl _⟩
    · rw [if_neg hcond]
      rw [not_and, not_lt] at hcond
      have hle : y.priority M ≤ c.priority M := hcond hys
      unfold Entry.priority at hle
      rw [hys] at hle ⊢
      exact ⟨rfl, by omega⟩
  · exact ⟨c, List.mem_append_right _ (List.mem_singleton.mpr rfl), rfl, le_refl _⟩

/-- The surviving entry for a pushed node carries the minimum of the old and
new estimated total costs. -/
theorem push_or_improve_priority_min {S : Type} [DecidableEq S] (M : State S)
    (q : List (Entry S)) (c x : Entry S) (hx : x ∈ q)
    (hs : x.state = c.state) :
    ∃ y ∈ push_or_improve M q c, y.state = c.state ∧
      y.priority M = min (x.priority M) (c.priority M) := by
  unfold push_or_improve
  rw [if_pos (hs ▸ List.mem_map_of_mem Entry.state hx)]
  refine ⟨if x.state = c.state ∧ c.priority M < x.priority M then c else x,
    List.mem_map_of_mem _ hx, ?_⟩
  by_cases hcond : x.state = c.state ∧ c.priority M < x.priority M
  · rw [if_pos hcond]
    exact ⟨rfl, (min_eq_right (le_of_lt hcond.2)).symm⟩
  · rw [if_neg hcond]
    have hle : x.priority M ≤ c.priority M := by
      by_contra hgt
      exact hcond ⟨hs, by omega⟩
    exact ⟨hs, (min_eq_left hle).symm⟩

theorem pop_min_eq_none_iff {S : Type} (M : State S) :
    ∀ q : List (Entry S), pop_min M q = none ↔ q = []
  | [] => by simp [pop_min]
  | e :: es => by
    constructor
    · intro hc
      exfalso
      simp only [pop_min] at hc
      cases h : pop_min M es with
      | none =>
        rw [h] at hc
        exact Option.noConfusion hc
      | some p =>
        cases p with
        | mk m rest =>
          rw [h] at hc
          have hc2 : (if e.priority M ≤ m.priority M then some (e, es)
              else some (m, e :: rest)) = (none : Option (Entry S × List (Entry S))) := hc
          by_cases hle : e.priority M ≤ m.priority M
          · rw [if_pos hle] at hc2
            exact Option.noConfusion hc2
          · rw [if_neg hle] at hc2
            exact Option.noConfusion hc2
    · intro hc
      exact List.noConfusion hc

/-- `pop_min` returns a member of minimum estimated total cost, and the rest
is the frontier with exactly that occurrence removed. -/
theorem pop_min_spec {S : Type} (M : State S) :
    ∀ (q rest : List (Entry S)) (e : Entry S), pop_min M q = some (e, rest) →
      e ∈ q ∧ q.Perm (e :: rest) ∧ rest.Sublist q ∧
        ∀ x ∈ q, e.priority M ≤ x.priority M
  | [], rest, e => by simp [pop_min]
  | a :: es, rest, e => by
    intro h
    simp only [pop_min] at h
    cases h2 : pop_min M es with
    | none =>
      rw [h2] at h
      have hes : es = [] := (pop_min_eq_none_iff M es).mp h2
      injection h with h
      injection h with h1 h3
      subst h1; subst h3; subst hes
      refine ⟨List.mem_singleton.mpr rfl, List.Perm.refl _, by simp, ?_⟩
      intro x hx
      rw [List.mem_singleton.mp hx]
    | some p =>
      rw [h2] at h
      cases p with
      | mk m r =>
        have IH := pop_min_spec M es r m h2
        have h3 : (if a.priority M ≤ m.priority M then some (a, es)
            else some (m, a :: r)) = some (e, rest) := h
        by_cases hle : a.priority M ≤ m.priority M
        · rw [if_pos hle] at h3
          injection h3 with h3
          injection h3 with h4 h5
          subst h4; subst h5
          refine ⟨List.mem_cons_self _ _, List.Perm.refl _,
            List.sublist_cons_self _ _, ?_⟩
          intro x hx
          rcases List.mem_cons.mp hx with rfl | hx
          · exact le_refl _
          · exact le_trans hle (IH.2.2.2 x hx)
        · rw [if_neg hle] at h3
          injection h3 with h3
          injection h3 with h4 h5
          subst h4; subst h5
          refine ⟨List.mem_cons_of_mem _ IH.1, ?_, ?_, ?_⟩
          · exact (List.Perm.cons a IH.2.1).trans (List.Perm.swap m a r)
          · exact List.Sublist.cons₂ a IH.2.2.1
          · intro x hx
            rcases List.mem_cons.mp hx with rfl | hx
            · omega
            · exact IH.2.2.2 x hx

theorem pop_min_mem {S : Type} (M : State S) (q rest : List (Entry S))
    (e : Entry S) (h : pop_min M q = some (e, rest)) : e ∈ q :=
  (pop_min_spec M q rest e h).1

theorem pop_min_le {S : Type} (M : State S) (q rest : List (Entry S))
    (e : Entry S) (h : pop_min M q = some (e, rest)) :
    ∀ x ∈ q, e.priority M ≤ x.priority M :=
  (pop_min_spec M q rest e h).2.2.2

theorem pop_min_sublist {S : Type} (M : State S) (q rest : List (Entry S))
    (e : Entry S) (h : pop_min M q = some (e, rest)) : rest.Sublist q :=
  (pop_min_spec M q rest e h).2.2.1

theorem pop_min_rest_mem {S : Type} (M : State S) (q rest : List (Entry S))
    (e x : Entry S) (h : pop_min M q = some (e, rest)) (hx : x ∈ rest) : x ∈ q :=
  (pop_min_sublist M q rest e h).mem hx

theorem pop_min_nodupStates {S : Type} (M : State S) (q rest : List (Entry S))
    (e : Entry S) (h : pop_min M q = some (e, rest)) (hnd : NodupStates q) :
    NodupStates rest :=
  List.Nodup.sublist (List.Sublist.map Entry.state (pop_min_sublist M q rest e h)) hnd

/-- With at most one entry per node, the popped node is gone from the rest. -/
theorem pop_min_state_not_mem_rest {S : Type} (M : State S)
    (q rest : List (Entry S)) (e : Entry S) (h : pop_min M q = some (e, rest))
    (hnd : NodupStates q) : e.state ∉ statesOf rest := by
  have hperm : (statesOf q).Perm (statesOf (e :: rest)) :=
    List.Perm.map Entry.state (pop_min_spec M q rest e h).2.1
  have : (statesOf (e :: rest)).Nodup := hperm.nodup_iff.mp hnd
  simpa [statesOf] using (List.nodup_cons.mp this).1

/-- Every entry present after the expansion loop was already present or is one
of the candidate entries built from an unvisited successor. -/
theorem mem_pushCandidates {S : Type} [DecidableEq S] (M : State S)
    (E : List (S × Nat)) (e : Entry S) (l : List (Nat × S))
    (q : List (Entry S)) (x : Entry S) (h : x ∈ pushCandidates M E e l q) :
    x ∈ q ∨ ∃ w t, (w, t) ∈ l ∧ t ∉ E.map Prod.fst ∧
      x = ⟨e.cost + w, t, e.route ++ [t]⟩ := by
  induction l generalizing q with
  | nil => exact Or.inl h
  | cons ws l IH =>
    simp only [pushCandidates] at h
    by_cases hv : ws.2 ∈ E.map Prod.fst
    · rw [if_pos hv] at h
      rcases IH q h with h1 | ⟨w, t, hm, hnv, hx⟩
      · exact Or.inl h1
      · exact Or.inr ⟨w, t, List.mem_cons_of_mem _ hm, hnv, hx⟩
    · rw [if_neg hv] at h
      rcases IH _ h with h1 | ⟨w, t, hm, hnv, hx⟩
      · rcases mem_push_or_improve M q _ x h1 with h2 | h2
        · exact Or.inl h2
        · exact Or.inr ⟨ws.1, ws.2, by simp, hv, h2⟩
      · exact Or.inr ⟨w, t, List.mem_cons_of_mem _ hm, hnv, hx⟩

theorem pushCandidates_cost_le {S : Type} [DecidableEq S] (M : State S)
    (E : List (S × Nat)) (e : Entry S) (l : List (Nat × S))
    (q : List (Entry S)) (s : S) (a : Nat)
    (h : ∃ x ∈ q, x.state = s ∧ x.cost ≤ a) :
    ∃ x ∈ pushCandidates M E e l q, x.state = s ∧ x.cost ≤ a := by
  induction l generalizing q with
  | nil => exact h
  | cons ws l IH =>
    simp only [pushCandidates]
    by_cases hv : ws.2 ∈ E.map Prod.fst
    · rw [if_pos hv]
      exact IH q h
    · rw [if_neg hv]
      exact IH _ (push_or_improve_cost_le M q _ s a h)

theorem pushCandidates_cost_ub {S : Type} [DecidableEq S] (M : State S)
    (E : List (S × Nat)) (e : Entry S) (l : List (Nat × S))
    (q : List (Entry S)) (w : Nat) (t : S) (hm : (w, t) ∈ l)
    (hnv : t ∉ E.map Prod.fst) :
    ∃ x ∈ pushCandidates M E e l q, x.state = t ∧ x.cost ≤ e.cost + w := by
  induction l generalizing q with
  | nil => exact absurd hm (List.not_mem_nil _)
  | cons ws l IH =>
    simp only [pushCandidates]
    rcases List.mem_cons.mp hm with rfl | hm2
    · rw [if_neg hnv]
      exact pushCandidates_cost_le M E e l _ t (e.cost + w)
        (push_or_improve_cost_ub M q _)
    · by_cases hv : ws.2 ∈ E.map Prod.fst
      · rw [if_pos hv]
        exact IH q hm2
      · rw [if_neg hv]
        exact IH _ hm2

theorem pushCandidates_statesOf_superset {S : Type} [DecidableEq S]
    (M : State S) (E : List (S × Nat)) (e : Entry S) (l : List (Nat × S))
    (q : List (Entry S)) (s : S) (h : s ∈ statesOf q) :
    s ∈ statesOf (pushCandidates M E e l q) := by
  induction l generalizing q with
  | nil => exact h
  | cons ws l IH =>
    simp only [pushCandidates]
    by_cases hv : ws.2 ∈ E.map Prod.fst
    · rw [if_pos hv]
      exact IH q h
    · rw [if_neg hv]
      exact IH _ ((mem_statesOf_push M q _ s).mpr (Or.inl h))

theorem pushCandidates_state_cases {S : Type} [DecidableEq S] (M : State S)
    (E : List (S × Nat)) (e : Entry S) (l : List (Nat × S))
    (q : List (Entry S)) (s : S)
    (h : s ∈ statesOf (pushCandidates M E e l q)) :
    s ∈ statesOf q ∨ s ∉ E.map Prod.fst := by
  induction l generalizing q with
  | nil => exact Or.inl h
  | cons ws l IH =>
    simp only [pushCandidates] at h
    by_cases hv : ws.2 ∈ E.map Prod.fst
    · rw [if_pos hv] at h
      exact IH q h
    · rw [if_neg hv] at h
      rcases IH _ h with h1 | h1
      · rcases (mem_statesOf_push M q _ s).mp h1 with h2 | h2
        · exact Or.inl h2
        · exact Or.inr (h2 ▸ hv)
      · exact Or.inr h1

theorem pushCandidates_nodupStates {S : Type} [DecidableEq S] (M : State S)
    (E : List (S × Nat)) (e : Entry S) (l : List (Nat × S))
    (q : List (Entry S)) (h : NodupStates q) :
    NodupStates (pushCandidates M E e l q) := by
  induction l generalizing q with
  | nil => exact h
  | cons ws l IH =>
    simp only [pushCandidates]
    by_cases hv : ws.2 ∈ E.map Prod.fst
    · rw [if_pos hv]
      exact IH q h
    · rw [if_neg hv]
      exact IH _ (nodupStates_push M q _ h)

/-- The expansion loop never inserts an entry for a visited node: a node in
the visited set that is absent from the frontier stays absent. -/
theorem pushCandidates_not_mem_of_visited {S : Type} [DecidableEq S]
    (M : State S) (E : List (S × Nat)) (e : Entry S) (l : List (Nat × S))
    (q : List (Entry S)) (s : S) (hv : s ∈ E.map Prod.fst)
    (hq : s ∉ statesOf q) : s ∉ statesOf (pushCandidates M E e l q) := by
  intro hmem
  rcases pushCandidates_state_cases M E e l q s hmem with h1 | h1
  · exact hq h1
  · exact h1 hv

/-! ## Lemmas about whole runs of the search loop -/

theorem solveLoop_succ_empty {S : Type} [DecidableEq S] (M : State S)
    (n : Nat) (q : List (Entry S)) (E : List (S × Nat))
    (hp : pop_min M q = none) :
    solveLoop M (Nat.succ n) q E = (some (Except.error (E.map Prod.fst)), E) := by
  simp [solveLoop, hp]

theorem solveLoop_succ_goal {S : Type} [DecidableEq S] (M : State S)
    (n : Nat) (q rest : List (Entry S)) (E : List (S × Nat)) (e : Entry S)
    (hp : pop_min M q = some (e, rest)) (hend : M.is_end e.state = true) :
    solveLoop M (Nat.succ n) q E = (some (Except.ok (e.cost, e.route)), E) := by
  simp [solveLoop, hp, hend]

theorem solveLoop_succ_expand {S : Type} [DecidableEq S] (M : State S)
    (n : Nat) (q rest : List (Entry S)) (E : List (S × Nat)) (e : Entry S)
    (hp : pop_min M q = some (e, rest)) (hend : M.is_end e.state = false) :
    solveLoop M (Nat.succ n) q E =
      solveLoop M n (expandEntry M ((e.state, e.cost) :: E) e rest)
        ((e.state, e.cost) :: E) := by
  simp [solveLoop, hp, hend]

/-- On failure, the returned payload is exactly the visited set held in the
final accumulator. -/
theorem solveLoop_error_eq {S : Type} [DecidableEq S] (M : State S) :
    ∀ (n : Nat) (q : List (Entry S)) (E : List (S × Nat)) (v : List S)
      (E2 : List (S × Nat)),
      solveLoop M n q E = (some (Except.error v), E2) → v = E2.map Prod.fst
  | 0, q, E, v, E2 => by
    intro h
    simp [solveLoop] at h
  | Nat.succ n, q, E, v, E2 => by
    intro h
    simp only [solveLoop] at h
    cases hp : pop_min M q with
    | none =>
      rw [hp] at h
      injection h with h1 h2
      injection h1 with h1
      injection h1 with h1
      subst h2
      exact h1.symm
    | some p =>
      rw [hp] at h
      cases p with
      | mk e rest =>
        have h2 : (if M.is_end e.state then
            (some (Except.ok (e.cost, e.route)), E)
          else solveLoop M n (expandEntry M ((e.state, e.cost) :: E) e rest)
            ((e.state, e.cost) :: E)) = (some (Except.error v), E2) := h
        by_cases hend : M.is_end e.state
        · rw [if_pos hend] at h2
          injection h2 with h3 h4
          injection h3 with h3
          exact absurd h3 (by simp)
        · rw [if_neg hend] at h2
          exact solveLoop_error_eq M n _ _ v E2 h2

/-- On failure, every node of the starting accumulator and every node in the
starting frontier ends up in the returned visited set. -/
theorem solveLoop_error_superset {S : Type} [DecidableEq S] (M : State S) :
    ∀ (n : Nat) (q : List (Entry S)) (E : List (S × Nat)) (v : List S)
      (E2 : List (S × Nat)),
      solveLoop M n q E = (some (Except.error v), E2) →
      (∀ s ∈ E.map Prod.fst, s ∈ v) ∧ (∀ s ∈ statesOf q, s ∈ v)
  | 0, q, E, v, E2 => by
    intro h
    simp [solveLoop] at h
  | Nat.succ n, q, E, v, E2 => by
    intro h
    simp only [solveLoop] at h
    cases hp : pop_min M q with
    | none =>
      rw [hp] at h
      injection h with h1 h2
      injection h1 with h1
      injection h1 with h1
      have hq : q = [] := (pop_min_eq_none_iff M q).mp hp
      subst hq
      refine ⟨fun s hs => h1 ▸ hs, ?_⟩
      intro s hs
      exact absurd hs (by simp [statesOf])
    | some p =>
      rw [hp] at h
      cases p with
      | mk e rest =>
        have h2 : (if M.is_end e.state then
            (some (Except.ok (e.cost, e.route)), E)
          else solveLoop M n (expandEntry M ((e.state, e.cost) :: E) e rest)
            ((e.state, e.cost) :: E)) = (some (Except.error v), E2) := h
        by_cases hend : M.is_end e.state
        · rw [if_pos hend] at h2
          injection h2 with h3 h4
          injection h3 with h3
          exact absurd h3 (by simp)
        · rw [if_neg hend] at h2
          have IH := solveLoop_error_superset M n _ _ v E2 h2
          constructor
          · intro s hs
            exact IH.1 s (by simp [hs])
          · intro s hs
            have hperm := (pop_min_spec M q rest e hp).2.1
            have hs2 : s ∈ statesOf (e :: rest) :=
              (List.Perm.map Entry.state hperm).mem_iff.mp hs
            rcases List.mem_cons.mp hs2 with rfl | hs3
            · exact IH.1 _ (by simp)
            · exact IH.2 s
                (pushCandidates_statesOf_superset M _ e _ rest s hs3)

/-- Expansion only ever records nodes that fail the goal test. -/
theorem solveLoop_endFree {S : Type} [DecidableEq S] (M : State S) :
    ∀ (n : Nat) (q : List (Entry S)) (E : List (S × Nat))
      (r : Option (Except (List S) (Nat × List S))) (E2 : List (S × Nat)),
      (∀ p ∈ E, M.is_end p.1 = false) →
      solveLoop M n q E = (r, E2) →
      ∀ p ∈ E2, M.is_end p.1 = false
  | 0, q, E, r, E2 => by
    intro hE h
    simp only [solveLoop] at h
    injection h with h1 h2
    subst h2
    exact hE
  | Nat.succ n, q, E, r, E2 => by
    intro hE h
    simp only [solveLoop] at h
    cases hp : pop_min M q with
    | none =>
      rw [hp] at h
      injection h with h1 h2
      subst h2
      exact hE
    | some p =>
      rw [hp] at h
      cases p with
      | mk e rest =>
        have h2 : (if M.is_end e.state then
            (some (Except.ok (e.cost, e.route)), E)
          else solveLoop M n (expandEntry M ((e.state, e.cost) :: E) e rest)
            ((e.state, e.cost) :: E)) = (r, E2) := h
        by_cases hend : M.is_end e.state
        · rw [if_pos hend] at h2
          injection h2 with h3 h4
          subst h4
          exact hE
        · rw [if_neg hend] at h2
          refine solveLoop_endFree M n _ _ r E2 ?_ h2
          intro p hp2
          rcases List.mem_cons.mp hp2 with rfl | hp3
          · exact Bool.not_eq_true _ ▸ (by simpa using hend)
          · exact hE p hp3

/-! ## Reachability -/

theorem PathCost.edge_snoc {S : Type} {M : State S} {s t u : S} {c w : Nat}
    (h : PathCost M s t c) (he : (w, u) ∈ M.successors t) :
    PathCost M s u (c + w) := by
  induction h with
  | refl s =>
    have := PathCost.step he (PathCost.refl u)
    simpa [Nat.add_comm] using this
  | step h1 h2 IH =>
    have := PathCost.step h1 (IH he)
    simpa [Nat.add_assoc] using this

theorem PathCost.closed_mem {S : Type} {M : State S} {v : List S}
    (hclosed : ∀ s ∈ v, ∀ w t, (w, t) ∈ M.successors s → t ∈ v) :
    ∀ {s u : S} {c : Nat}, PathCost M s u c → s ∈ v → u ∈ v := by
  intro s u c h
  induction h with
  | refl s => exact fun hs => hs
  | step h1 h2 IH => exact fun hs => IH (hclosed _ hs _ _ h1)

/-- Every unvisited successor offered to the expansion loop shows up in the
resulting frontier. -/
theorem pushCandidates_succ_state_mem {S : Type} [DecidableEq S] (M : State S)
    (E : List (S × Nat)) (e : Entry S) (l : List (Nat × S))
    (q : List (Entry S)) (w : Nat) (t : S) (hm : (w, t) ∈ l)
    (hnv : t ∉ E.map Prod.fst) : t ∈ statesOf (pushCandidates M E e l q) := by
  rcases pushCandidates_cost_ub M E e l q w t hm hnv with ⟨x, hx, hs, _⟩
  exact hs ▸ List.mem_map_of_mem Entry.state hx

/-- On failure, the visited set is closed under taking successors, provided
the successors of already-expanded nodes are all accounted for. -/
theorem solveLoop_error_closed {S : Type} [DecidableEq S] (M : State S) :
    ∀ (n : Nat) (q : List (Entry S)) (E : List (S × Nat)) (v : List S)
      (E2 : List (S × Nat)),
      (∀ p ∈ E, ∀ w t, (w, t) ∈ M.successors p.1 →
        t ∈ E.map Prod.fst ∨ t ∈ statesOf q) →
      solveLoop M n q E = (some (Except.error v), E2) →
      ∀ s ∈ v, ∀ w t, (w, t) ∈ M.successors s → t ∈ v
  | 0, q, E, v, E2 => by
    intro hclo h
    simp [solveLoop] at h
  | Nat.succ n, q, E, v, E2 => by
    intro hclo h
    cases hp : pop_min M q with
    | none =>
      rw [solveLoop_succ_empty M n q E hp] at h
      injection h with h1 h2
      injection h1 with h1
      injection h1 with h1
      subst h2
      have hq : q = [] := (pop_min_eq_none_iff M q).mp hp
      subst hq
      subst h1
      intro s hs w t ht
      rcases List.mem_map.mp hs with ⟨p, hpE, rfl⟩
      rcases hclo p hpE w t ht with h3 | h3
      · exact h3
      · exact absurd h3 (by simp [statesOf])
    | some p =>
      cases p with
      | mk e rest =>
        by_cases hend : M.is_end e.state
        · rw [solveLoop_succ_goal M n q rest E e hp hend] at h
          injection h with h1 h2
          injection h1 with h1
          exact absurd h1 (by simp)
        · rw [solveLoop_succ_expand M n q rest E e hp
            (Bool.not_eq_true _ ▸ hend)] at h
          refine solveLoop_error_closed M n _ _ v E2 ?_ h
          intro p hpE w t ht
          rcases List.mem_cons.mp hpE with rfl | hpE2
          · by_cases hv : t ∈ ((e.state, e.cost) :: E).map Prod.fst
            · exact Or.inl hv
            · exact Or.inr
                (pushCandidates_succ_state_mem M _ e _ rest w t ht hv)
          · rcases hclo p hpE2 w t ht with h3 | h3
            · exact Or.inl (by simp [h3])
            · have hperm := (pop_min_spec M q rest e hp).2.1
              have ht2 : t ∈ statesOf (e :: rest) :=
                (List.Perm.map Entry.state hperm).mem_iff.mp h3
              rcases List.mem_cons.mp ht2 with rfl | ht3
              · exact Or.inl (by simp)
              · exact Or.inr
                  (pushCandidates_statesOf_superset M _ e _ rest t ht3)

/-- On failure, every visited node is reachable from wherever the run was
seeded: if everything in the accumulator and the frontier is reachable, so is
everything in the final visited set. -/
theorem solveLoop_error_reachable {S : Type} [DecidableEq S] (M : State S)
    (start : S) :
    ∀ (n : Nat) (q : List (Entry S)) (E : List (S × Nat)) (v : List S)
      (E2 : List (S × Nat)),
      (∀ p ∈ E, ∃ c, PathCost M start p.1 c) →
      (∀ x ∈ q, ∃ c, PathCost M start x.state c) →
      solveLoop M n q E = (some (Except.error v), E2) →
      ∀ s ∈ v, ∃ c, PathCost M start s c
  | 0, q, E, v, E2 => by
    intro hE hq h
    simp [solveLoop] at h
  | Nat.succ n, q, E, v, E2 => by
    intro hE hq h
    cases hp : pop_min M q with
    | none =>
      rw [solveLoop_succ_empty M n q E hp] at h
      injection h with h1 h2
      injection h1 with h1
      injection h1 with h1
      subst h2
      subst h1
      intro s hs
      rcases List.mem_map.mp hs with ⟨p, hpE, rfl⟩
      exact hE p hpE
    | some p =>
      cases p with
      | mk e rest =>
        by_cases hend : M.is_end e.state
        · rw [solveLoop_succ_goal M n q rest E e hp hend] at h
          injection h with h1 h2
          injection h1 with h1
          exact absurd h1 (by simp)
        · rw [solveLoop_succ_expand M n q rest E e hp
            (Bool.not_eq_true _ ▸ hend)] at h
          refine solveLoop_error_reachable M start n _ _ v E2 ?_ ?_ h
          · intro p hpE
            rcases List.mem_cons.mp hpE with rfl | hpE2
            · exact hq e (pop_min_mem M q rest e hp)
            · exact hE p hpE2
          · intro x hx
            rcases mem_pushCandidates M _ e _ rest x hx with hx1 | ⟨w, t, hm, _, rfl⟩
            · exact hq x (pop_min_rest_mem M q rest e x hp hx1)
            · rcases hq e (pop_min_mem M q rest e hp) with ⟨c0, hc0⟩
              exact ⟨c0 + w, hc0.edge_snoc hm⟩

/-! ## Route well-formedness -/

theorem RouteCost.ne_nil {S : Type} {M : State S} {l : List S} {c : Nat}
    (h : RouteCost M l c) : l ≠ [] := by
  cases h <;> simp

theorem RouteCost.route_snoc {S : Type} {M : State S} {l : List S} {c : Nat}
    {s t : S} {w : Nat} (h : RouteCost M l c) (hlast : l.getLast? = some s)
    (he : (w, t) ∈ M.successors s) : RouteCost M (l ++ [t]) (c + w) := by
  induction h with
  | single a =>
    have ha : a = s := by simpa using hlast
    subst ha
    have := RouteCost.cons he (RouteCost.single t)
    simpa [Nat.add_comm] using this
  | @cons a b l0 w0 c0 h1 h2 IH =>
    have hlast2 : (b :: l0).getLast? = some s := by
      rwa [List.getLast?_cons_cons] at hlast
    have := RouteCost.cons h1 (IH hlast2)
    simpa [Nat.add_assoc] using this

theorem RouteCost.pathCost {S : Type} {M : State S} {l : List S} {c : Nat}
    {s u : S} (h : RouteCost M l c) (hhead : l.head? = some s)
    (hlast : l.getLast? = some u) : PathCost M s u c := by
  induction h generalizing s with
  | single a =>
    have h1 : a = s := by simpa using hhead
    have h2 : a = u := by simpa using hlast
    subst h1
    rw [← h2]
    exact PathCost.refl a
  | @cons a b l0 w0 c0 h1 h2 IH =>
    have h3 : a = s := by simpa using hhead
    subst h3
    have hlast2 : (b :: l0).getLast? = some u := by
      rwa [List.getLast?_cons_cons] at hlast
    exact PathCost.step h1 (IH rfl hlast2)

theorem RouteCost.chain {S : Type} {M : State S} {l : List S} {c : Nat}
    (h : RouteCost M l c) :
    l.Chain' (fun a b => ∃ w, (w, b) ∈ M.successors a) := by
  induction h with
  | single a => simp
  | cons h1 h2 IH => exact List.chain'_cons.mpr ⟨⟨_, h1⟩, IH⟩

theorem routeInv_expand {S : Type} [DecidableEq S] (M : State S) (start : S)
    (q rest : List (Entry S)) (E : List (S × Nat)) (e : Entry S)
    (hinv : RouteInv M start q) (hp : pop_min M q = some (e, rest)) :
    RouteInv M start (expandEntry M E e rest) := by
  intro x hx
  rcases mem_pushCandidates M E e _ rest x hx with hx1 | ⟨w, t, hm, _, rfl⟩
  · exact hinv x (pop_min_rest_mem M q rest e x hp hx1)
  · rcases hinv e (pop_min_mem M q rest e hp) with ⟨hrc, hhead, hlast⟩
    refine ⟨hrc.route_snoc hlast hm, ?_, ?_⟩
    · have hne := hrc.ne_nil
      cases hrl : e.route with
      | nil => exact absurd hrl hne
      | cons a l0 =>
        rw [hrl] at hhead
        simpa using hhead
    · simp

theorem solveLoop_ok_route {S : Type} [DecidableEq S] (M : State S)
    (start : S) :
    ∀ (n : Nat) (q : List (Entry S)) (E : List (S × Nat)) (c : Nat)
      (p : List S) (E2 : List (S × Nat)),
      RouteInv M start q →
      solveLoop M n q E = (some (Except.ok (c, p)), E2) →
      RouteCost M p c ∧ p.head? = some start ∧
        ∃ u, p.getLast? = some u ∧ M.is_end u = true
  | 0, q, E, c, p, E2 => by
    intro hinv h
    simp [solveLoop] at h
  | Nat.succ n, q, E, c, p, E2 => by
    intro hinv h
    cases hp : pop_min M q with
    | none =>
      rw [solveLoop_succ_empty M n q E hp] at h
      injection h with h1 h2
      injection h1 with h1
      exact absurd h1 (by simp)
    | some pr =>
      cases pr with
      | mk e rest =>
        by_cases hend : M.is_end e.state
        · rw [solveLoop_succ_goal M n q rest E e hp hend] at h
          injection h with h1 h2
          injection h1 with h1
          injection h1 with h1
          injection h1 with h3 h4
          subst h3
          subst h4
          rcases hinv e (pop_min_mem M q rest e hp) with ⟨hrc, hhead, hlast⟩
          exact ⟨hrc, hhead, e.state, hlast, hend⟩
        · rw [solveLoop_succ_expand M n q rest E e hp
            (Bool.not_eq_true _ ▸ hend)] at h
          exact solveLoop_ok_route M start n _ _ c p E2
            (routeInv_expand M start q rest _ e hinv hp) h

/-! ## No re-expansion -/

/-- Along any run in which the frontier has one entry per node, the visited
set has no duplicates and never shares a node with the frontier, so the final
expansion record is duplicate-free. -/
theorem solveLoop_nodup {S : Type} [DecidableEq S] (M : State S) :
    ∀ (n : Nat) (q : List (Entry S)) (E : List (S × Nat))
      (r : Option (Except (List S) (Nat × List S))) (E2 : List (S × Nat)),
      NodupStates q → (E.map Prod.fst).Nodup →
      (∀ s ∈ E.map Prod.fst, s ∉ statesOf q) →
      solveLoop M n q E = (r, E2) → (E2.map Prod.fst).Nodup
  | 0, q, E, r, E2 => by
    intro hq hE hdisj h
    simp only [solveLoop] at h
    injection h with h1 h2
    subst h2
    exact hE
  | Nat.succ n, q, E, r, E2 => by
    intro hq hE hdisj h
    cases hp : pop_min M q with
    | none =>
      rw [solveLoop_succ_empty M n q E hp] at h
      injection h with h1 h2
      subst h2
      exact hE
    | some pr =>
      cases pr with
      | mk e rest =>
        by_cases hend : M.is_end e.state
        · rw [solveLoop_succ_goal M n q rest E e hp hend] at h
          injection h with h1 h2
          subst h2
          exact hE
        · rw [solveLoop_succ_expand M n q rest E e hp
            (Bool.not_eq_true _ ▸ hend)] at h
          have hmem : e.state ∈ statesOf q :=
            List.mem_map_of_mem Entry.state (pop_min_mem M q rest e hp)
          have hnotE : e.state ∉ E.map Prod.fst := fun hc => hdisj _ hc hmem
          have hsub : statesOf rest ⊆ statesOf q :=
            (List.Sublist.map Entry.state (pop_min_sublist M q rest e hp)).subset
          refine solveLoop_nodup M n _ _ r E2 ?_ ?_ ?_ h
          · exact pushCandidates_nodupStates M _ e _ rest
              (pop_min_nodupStates M q rest e hp hq)
          · rw [List.map_cons]
            exact List.nodup_cons.mpr ⟨hnotE, hE⟩
          · intro s hs
            rw [List.map_cons] at hs
            rcases List.mem_cons.mp hs with rfl | hs2
            · exact pushCandidates_not_mem_of_visited M _ e _ rest e.state
                (by rw [List.map_cons]; exact List.mem_cons_self _ _)
                (pop_min_state_not_mem_rest M q rest e hp hq)
            · exact pushCandidates_not_mem_of_visited M _ e _ rest s
                (by rw [List.map_cons]; exact List.mem_cons_of_mem _ hs2)
                (fun hc => hdisj s hs2 (hsub hc))

/-! ## Optimality under a consistent heuristic -/

/-- Along any path, a consistent heuristic drops by at most the path cost. -/
theorem consistent_path_bound {S : Type} {M : State S} (hcons : Consistent M)
    {s u : S} {r : Nat} (h : PathCost M s u r) :
    M.heuristic s ≤ r + M.heuristic u := by
  induction h with
  | refl s => omega
  | @step a t b w c h1 h2 IH =>
    have := hcons a w t h1
    omega

/-- An admissible heuristic vanishes on goal nodes. -/
theorem admissible_end_zero {S : Type} {M : State S} (hadm : Admissible M)
    {u : S} (hend : M.is_end u = true) : M.heuristic u = 0 :=
  Nat.le_zero.mp (hadm u u 0 (PathCost.refl u) hend)

/-- If a successor of the newly expanded node is already in the visited
record, pop monotonicity and consistency bound its recorded expansion cost by
the cost the new expansion offers. -/
theorem visited_succ_bound {S : Type} [DecidableEq S] {M : State S}
    {q : List (Entry S)} {E : List (S × Nat)} {e : Entry S} {w : Nat}
    {t : S} {g2 : Nat} (hcons : Consistent M) (hmono : Mono M q E)
    (heq : e ∈ q) (hwt : (w, t) ∈ M.successors e.state)
    (hg2 : (t, g2) ∈ (e.state, e.cost) :: E) : g2 ≤ e.cost + w := by
  rcases List.mem_cons.mp hg2 with h1 | h1
  · injection h1 with h2 h3
    omega
  · have h4 := hmono (t, g2) h1 e heq
    have h5 := hcons e.state w t hwt
    unfold Entry.priority at h4
    simp only at h4
    omega

theorem mono_expand {S : Type} [DecidableEq S] {M : State S}
    {q rest : List (Entry S)} {E : List (S × Nat)} {e : Entry S}
    (hcons : Consistent M) (hmono : Mono M q E)
    (hp : pop_min M q = some (e, rest)) :
    Mono M (expandEntry M ((e.state, e.cost) :: E) e rest)
      ((e.state, e.cost) :: E) := by
  intro p hpE x hx
  have hxq := mem_pushCandidates M _ e _ rest x hx
  have hprix : e.priority M ≤ x.priority M := by
    rcases hxq with h1 | ⟨w, t, hm, _, rfl⟩
    · exact pop_min_le M q rest e hp x (pop_min_rest_mem M q rest e x hp h1)
    · have := hcons e.state w t hm
      unfold Entry.priority
      simp only
      omega
  rcases List.mem_cons.mp hpE with rfl | hpE2
  · simpa [Entry.priority] using hprix
  · exact le_trans (hmono p hpE2 e (pop_min_mem M q rest e hp)) hprix

theorem expandedBounds_expand {S : Type} [DecidableEq S] {M : State S}
    {q rest : List (Entry S)} {E : List (S × Nat)} {e : Entry S}
    (hcons : Consistent M) (hmono : Mono M q E) (hEB : ExpandedBounds M q E)
    (hp : pop_min M q = some (e, rest)) :
    ExpandedBounds M (expandEntry M ((e.state, e.cost) :: E) e rest)
      ((e.state, e.cost) :: E) := by
  intro p hpE w t hwt
  rcases List.mem_cons.mp hpE with rfl | hpE2
  · simp only at hwt
    by_cases hv : t ∈ ((e.state, e.cost) :: E).map Prod.fst
    · rcases List.mem_map.mp hv with ⟨pr, hpr, hpr1⟩
      refine Or.inl ⟨pr.2, ?_, ?_⟩
      · exact (show (t, pr.2) = pr by rw [← hpr1]) ▸ hpr
      · exact visited_succ_bound hcons hmono (pop_min_mem M q rest e hp) hwt
          ((show (t, pr.2) = pr by rw [← hpr1]) ▸ hpr)
    · exact Or.inr (pushCandidates_cost_ub M _ e _ rest w t hwt hv)
  · rcases hEB p hpE2 w t hwt with ⟨g2, htE, hb⟩ | ⟨x, hxq, hxs, hxb⟩
    · exact Or.inl ⟨g2, List.mem_cons_of_mem _ htE, hb⟩
    · have hx2 : x ∈ e :: rest :=
        ((pop_min_spec M q rest e hp).2.1).mem_iff.mp hxq
      rcases List.mem_cons.mp hx2 with rfl | hx3
      · refine Or.inl ⟨x.cost, ?_, hxb⟩
        rw [← hxs]
        exact List.mem_cons_self _ _
      · refine Or.inr ?_
        exact pushCandidates_cost_le M _ e _ rest t (p.2 + w)
          ⟨x, hx3, hxs, hxb⟩

theorem reachInv_expand {S : Type} [DecidableEq S] {M : State S}
    {start : S} {q rest : List (Entry S)} {E : List (S × Nat)} {e : Entry S}
    (hcons : Consistent M) (hmono : Mono M q E)
    (hRI : ReachInv M start q E) (hp : pop_min M q = some (e, rest)) :
    ReachInv M start (expandEntry M ((e.state, e.cost) :: E) e rest)
      ((e.state, e.cost) :: E) := by
  intro u c hpath
  rcases hRI u c hpath with ⟨x, hxq, r, hpr, hb⟩ | ⟨v, g, r, hvE, hpr, hb⟩
  · have hx2 : x ∈ e :: rest :=
      ((pop_min_spec M q rest e hp).2.1).mem_iff.mp hxq
    rcases List.mem_cons.mp hx2 with rfl | hx3
    · cases hpr with
      | refl =>
        exact Or.inr ⟨x.state, x.cost, 0, List.mem_cons_self _ _,
          PathCost.refl _, hb⟩
      | @step a t b w c2 h1 h2 =>
        by_cases hv : t ∈ ((x.state, x.cost) :: E).map Prod.fst
        · rcases List.mem_map.mp hv with ⟨pr, hpr2, hpr1⟩
          have hg2 : (t, pr.2) ∈ (x.state, x.cost) :: E :=
            (show (t, pr.2) = pr by rw [← hpr1]) ▸ hpr2
          have hbd := visited_succ_bound hcons hmono
            (pop_min_mem M q rest x hp) h1 hg2
          exact Or.inr ⟨t, pr.2, c2, hg2, h2, by omega⟩
        · rcases pushCandidates_cost_ub M _ x _ rest w t h1 hv
            with ⟨y, hy, hys, hyb⟩
          refine Or.inl ⟨y, hy, c2, ?_, by omega⟩
          rw [hys]
          exact h2
    · rcases pushCandidates_cost_le M _ e _ rest x.state x.cost
        ⟨x, hx3, rfl, le_refl _⟩ with ⟨y, hy, hys, hyb⟩
      refine Or.inl ⟨y, hy, r, ?_, by omega⟩
      rw [hys]
      exact hpr
  · exact Or.inr ⟨v, g, r, List.mem_cons_of_mem _ hvE, hpr, hb⟩

/-- A path from an already-expanded node can be matched, within its cost,
either from a frontier entry or by another already-expanded node. -/
theorem expanded_reach {S : Type} {M : State S} {q : List (Entry S)}
    {E : List (S × Nat)} (hEB : ExpandedBounds M q E) :
    ∀ {v u : S} {r : Nat}, PathCost M v u r → ∀ {g : Nat}, (v, g) ∈ E →
      (∃ x ∈ q, ∃ r2, PathCost M x.state u r2 ∧ x.cost + r2 ≤ g + r) ∨
      (∃ g2, (u, g2) ∈ E ∧ g2 ≤ g + r) := by
  intro v u r hp
  induction hp with
  | refl s =>
    intro g hvE
    exact Or.inr ⟨g, hvE, by omega⟩
  | @step s t b w c2 h1 h2 IH =>
    intro g hvE
    rcases hEB (s, g) hvE w t h1 with ⟨g2, htE, hb⟩ | ⟨x, hxq, hxs, hxb⟩
    · rcases IH htE with ⟨x, hxq, r2, hp3, hb2⟩ | ⟨g3, huE, hb2⟩
      · exact Or.inl ⟨x, hxq, r2, hp3, by omega⟩
      · exact Or.inr ⟨g3, huE, by omega⟩
    · refine Or.inl ⟨x, hxq, c2, ?_, by omega⟩
      rw [hxs]
      exact h2

/-- Main optimality induction: from any loop state satisfying the invariants,
a successful result's cost is a lower bound for the cost of every path from
the start to a goal node. -/
theorem solveLoop_ok_min {S : Type} [DecidableEq S] (M : State S) (start : S)
    (hadm : Admissible M) (hcons : Consistent M) :
    ∀ (n : Nat) (q : List (Entry S)) (E : List (S × Nat)) (c : Nat)
      (p : List S) (E2 : List (S × Nat)),
      Mono M q E → ExpandedBounds M q E → ReachInv M start q E →
      (∀ pr ∈ E, M.is_end pr.1 = false) →
      solveLoop M n q E = (some (Except.ok (c, p)), E2) →
      ∀ u k, M.is_end u = true → PathCost M start u k → c ≤ k
  | 0, q, E, c, p, E2 => by
    intro hmono hEB hRI hEF h
    simp [solveLoop] at h
  | Nat.succ n, q, E, c, p, E2 => by
    intro hmono hEB hRI hEF h
    cases hp : pop_min M q with
    | none =>
      rw [solveLoop_succ_empty M n q E hp] at h
      injection h with h1 h2
      injection h1 with h1
      exact absurd h1 (by simp)
    | some pr =>
      cases pr with
      | mk e rest =>
        by_cases hend : M.is_end e.state
        · rw [solveLoop_succ_goal M n q rest E e hp hend] at h
          injection h with h1 h2
          injection h1 with h1
          injection h1 with h1
          injection h1 with h3 h4
          subst h3
          intro u k hu hk
          have hcb : ∀ x ∈ q, ∀ r, PathCost M x.state u r →
              x.cost + r ≤ k → e.cost ≤ k := by
            intro x hxq r hpr hb
            have h5 := pop_min_le M q rest e hp x hxq
            have h6 := consistent_path_bound hcons hpr
            have h7 := admissible_end_zero hadm hu
            unfold Entry.priority at h5
            omega
          rcases hRI u k hk with ⟨x, hxq, r, hpr, hb⟩ | ⟨v, g, r, hvE, hpr, hb⟩
          · exact hcb x hxq r hpr hb
          · rcases expanded_reach hEB hpr hvE
              with ⟨x, hxq, r2, hp3, hb2⟩ | ⟨g3, huE, _⟩
            · exact hcb x hxq r2 hp3 (by omega)
            · exact absurd hu (by simp [hEF (u, g3) huE])
        · rw [solveLoop_succ_expand M n q rest E e hp
            (Bool.not_eq_true _ ▸ hend)] at h
          refine solveLoop_ok_min M start hadm hcons n _ _ c p E2
            (mono_expand hcons hmono hp)
            (expandedBounds_expand hcons hmono hEB hp)
            (reachInv_expand hcons hmono hRI hp) ?_ h
          intro pr hpr
          rcases List.mem_cons.mp hpr with rfl | hpr2
          · simpa using hend
          · exact hEF pr hpr2

/-- Top-level optimality: with an admissible and consistent heuristic, the
cost returned by a successful `solve` is minimal among all goal paths. -/
theorem solve_ok_min {S : Type} [DecidableEq S] (M : State S)
    (fuel : Nat) (start : S) (c : Nat) (p : List S)
    (hadm : Admissible M) (hcons : Consistent M)
    (h : solve M fuel start = some (Except.ok (c, p))) :
    ∀ u k, M.is_end u = true → PathCost M start u k → c ≤ k := by
  unfold solve at h
  rcases hres : solveLoop M fuel [⟨0, start, [start]⟩] [] with ⟨r1, E2⟩
  rw [hres] at h
  simp only at h
  subst h
  refine solveLoop_ok_min M start hadm hcons fuel _ _ c p E2 ?_ ?_ ?_ ?_ hres
  · intro pr hpr
    exact absurd hpr (List.not_mem_nil _)
  · intro pr hpr
    exact absurd hpr (List.not_mem_nil _)
  · intro u k hk
    exact Or.inl ⟨⟨0, start, [start]⟩, List.mem_singleton.mpr rfl, k, hk,
      by simp⟩
  · intro pr hpr
    exact absurd hpr (List.not_mem_nil _)

/-- Top-level route well-formedness: a successful `solve` returns a genuine
route from the start to a goal node whose edge weights sum to the returned
cost. -/
theorem solve_ok_route {S : Type} [DecidableEq S] (M : State S)
    (fuel : Nat) (start : S) (c : Nat) (p : List S)
    (h : solve M fuel start = some (Except.ok (c, p))) :
    RouteCost M p c ∧ p.head? = some start ∧
      ∃ u, p.getLast? = some u ∧ M.is_end u = true := by
  unfold solve at h
  rcases hres : solveLoop M fuel [⟨0, start, [start]⟩] [] with ⟨r1, E2⟩
  rw [hres] at h
  simp only at h
  subst h
  refine solveLoop_ok_route M start fuel _ _ c p E2 ?_ hres
  intro x hx
  rw [List.mem_singleton.mp hx]
  exact ⟨RouteCost.single start, rfl, rfl⟩

/-- A successful `solve` reaches some goal node at exactly the returned
cost. -/
theorem solve_ok_pathCost {S : Type} [DecidableEq S] (M : State S)
    (fuel : Nat) (start : S) (c : Nat) (p : List S)
    (h : solve M fuel start = some (Except.ok (c, p))) :
    ∃ u, M.is_end u = true ∧ PathCost M start u c := by
  rcases solve_ok_route M fuel start c p h with ⟨hrc, hhead, u, hlast, hu⟩
  exact ⟨u, hu, hrc.pathCost hhead hlast⟩

/-! ## Top-level facts about failing and trivial runs -/

/-- On failure, the returned visited set is exactly the set of nodes
reachable from the start by chains of successor edges. -/
theorem solve_error_reach_iff {S : Type} [DecidableEq S] (M : State S)
    (fuel : Nat) (start : S) (v : List S)
    (h : solve M fuel start = some (Except.error v)) :
    ∀ s, s ∈ v ↔ ∃ c, PathCost M start s c := by
  unfold solve at h
  rcases hres : solveLoop M fuel [⟨0, start, [start]⟩] [] with ⟨r1, E2⟩
  rw [hres] at h
  simp only at h
  subst h
  intro s
  constructor
  · refine solveLoop_error_reachable M start fuel _ _ v E2 ?_ ?_ hres s
    · intro pr hpr
      exact absurd hpr (List.not_mem_nil _)
    · intro x hx
      rw [List.mem_singleton.mp hx]
      exact ⟨0, PathCost.refl start⟩
  · rintro ⟨c, hc⟩
    have hstart : start ∈ v := by
      refine (solveLoop_error_superset M fuel _ _ v E2 hres).2 start ?_
      simp [statesOf]
    have hclosed := solveLoop_error_closed M fuel _ _ v E2
      (fun pr hpr => absurd hpr (List.not_mem_nil _)) hres
    exact PathCost.closed_mem hclosed hc hstart

/-- On failure, no visited node satisfies the goal test. -/
theorem solve_error_endFree {S : Type} [DecidableEq S] (M : State S)
    (fuel : Nat) (start : S) (v : List S)
    (h : solve M fuel start = some (Except.error v)) :
    ∀ s ∈ v, M.is_end s = false := by
  unfold solve at h
  rcases hres : solveLoop M fuel [⟨0, start, [start]⟩] [] with ⟨r1, E2⟩
  rw [hres] at h
  simp only at h
  subst h
  have hEF := solveLoop_endFree M fuel _ _ _ E2
    (fun pr hpr => absurd hpr (List.not_mem_nil _)) hres
  have hv := solveLoop_error_eq M fuel _ _ v E2 hres
  intro s hs
  rw [hv] at hs
  rcases List.mem_map.mp hs with ⟨pr, hpr, rfl⟩
  exact hEF pr hpr

/-- On failure, no goal node is reachable from the start at all. -/
theorem solve_error_no_goal {S : Type} [DecidableEq S] (M : State S)
    (fuel : Nat) (start : S) (v : List S)
    (h : solve M fuel start = some (Except.error v)) :
    ¬ ∃ u c, M.is_end u = true ∧ PathCost M start u c := by
  rintro ⟨u, c, hu, hc⟩
  have hmem : u ∈ v := (solve_error_reach_iff M fuel start v h u).mpr ⟨c, hc⟩
  rw [solve_error_endFree M fuel start v h u hmem] at hu
  exact Bool.noConfusion hu

/-- The failure payload lists the expanded nodes, most recent first. -/
theorem solve_error_calls {S : Type} [DecidableEq S] (M : State S)
    (fuel : Nat) (start : S) (v : List S)
    (h : solve M fuel start = some (Except.error v)) :
    solveCalls M fuel start = v.reverse := by
  unfold solve at h
  unfold solveCalls
  rcases hres : solveLoop M fuel [⟨0, start, [start]⟩] [] with ⟨r1, E2⟩
  rw [hres] at h
  simp only at h ⊢
  subst h
  rw [solveLoop_error_eq M fuel _ _ v E2 hres]

/-- The calls trace never repeats a node. -/
theorem solve_calls_nodup {S : Type} [DecidableEq S] (M : State S)
    (fuel : Nat) (start : S) : (solveCalls M fuel start).Nodup := by
  unfold solveCalls
  rcases hres : solveLoop M fuel [⟨0, start, [start]⟩] [] with ⟨r1, E2⟩
  simp only
  rw [List.nodup_reverse]
  refine solveLoop_nodup M fuel _ _ r1 E2 ?_ ?_ ?_ hres
  · simp [NodupStates, statesOf]
  · simp
  · intro s hs
    exact absurd hs (by simp)

/-- A start node satisfying the goal test succeeds immediately at cost 0 with
the singleton route and no expansion. -/
theorem solve_trivial_goal {S : Type} [DecidableEq S] (M : State S)
    (fuel : Nat) (start : S) (hend : M.is_end start = true)
    (hfuel : 1 ≤ fuel) :
    solve M fuel start = some (Except.ok (0, [start])) ∧
      solveCalls M fuel start = [] := by
  cases fuel with
  | zero => omega
  | succ n =>
    have hp : pop_min M [(⟨0, start, [start]⟩ : Entry S)] =
        some (⟨0, start, [start]⟩, []) := rfl
    have hstep := solveLoop_succ_goal M n [⟨0, start, [start]⟩] [] []
      ⟨0, start, [start]⟩ hp hend
    constructor
    · unfold solve
      rw [hstep]
    · unfold solveCalls
      rw [hstep]
      simp

/-! ## Heuristic bridges and concrete machine facts -/

/-- Consistency plus vanishing at goals implies admissibility. -/
theorem admissible_of_consistent {S : Type} (M : State S)
    (hcons : Consistent M)
    (hzero : ∀ s, M.is_end s = true → M.heuristic s = 0) : Admissible M := by
  intro s u c hp hu
  have h1 := consistent_path_bound hcons hp
  have h2 := hzero u hu
  omega

/-- The all-zero heuristic is consistent. -/
theorem consistent_of_zero {S : Type} (M : State S)
    (h0 : ∀ s, M.heuristic s = 0) : Consistent M := by
  intro s w t hm
  simp [h0]

/-- The all-zero heuristic is admissible. -/
theorem admissible_of_zero {S : Type} (M : State S)
    (h0 : ∀ s, M.heuristic s = 0) : Admissible M := by
  intro s u c hp hu
  simp [h0]

theorem lineM_consistent : Consistent lineM := by
  have hd : ∀ s : LineNode, ∀ ws ∈ lineM.successors s,
      lineM.heuristic s ≤ ws.1 + lineM.heuristic ws.2 := by decide
  intro s w t hm
  exact hd s (w, t) hm

theorem lineM_admissible : Admissible lineM :=
  admissible_of_consistent lineM lineM_consistent (by decide)

/-- Every path to the goal of the counterexample graph costs at least the
true remaining distance. -/
theorem cex_lb {s u : CexNode} {c : Nat} (hp : PathCost cexM s u c)
    (hu : u = CexNode.G) : cexLB s ≤ c := by
  induction hp with
  | refl a =>
    subst hu
    simp [cexLB]
  | @step a t b w c2 h1 h2 IH =>
    have hb := IH hu
    cases a with
    | S =>
      simp [cexM] at h1
      rcases h1 with ⟨rfl, rfl⟩ | ⟨rfl, rfl⟩ <;> simp [cexLB] at hb ⊢ <;>
        try omega
    | A =>
      simp [cexM] at h1
      rcases h1 with ⟨rfl, rfl⟩
      simp [cexLB] at hb ⊢
      try omega
    | B =>
      simp [cexM] at h1
      rcases h1 with ⟨rfl, rfl⟩
      simp [cexLB] at hb ⊢
      try omega
    | G => simp [cexM] at h1

/-- The counterexample heuristic is admissible: it never exceeds the true
remaining cost to the goal. -/
theorem cexM_admissible : Admissible cexM := by
  intro s u c hp hu
  have hu2 : u = CexNode.G := by
    cases u <;> first | rfl | simp [cexM] at hu
  have hlb := cex_lb hp hu2
  cases s <;> simp [cexM, cexLB] at hlb ⊢ <;> omega

/-- The counterexample graph has a goal path of cost 11. -/
theorem cex_path11 : PathCost cexM CexNode.S CexNode.G 11 := by
  have h3 : PathCost cexM CexNode.B CexNode.G (10 + 0) :=
    PathCost.step (by simp [cexM]) (PathCost.refl _)
  have h2 : PathCost cexM CexNode.A CexNode.G (0 + (10 + 0)) :=
    PathCost.step (by simp [cexM]) h3
  have h1 : PathCost cexM CexNode.S CexNode.G (1 + (0 + (10 + 0))) :=
    PathCost.step (by simp [cexM]) h2
  simpa using h1

/-! ## Claim theorems -/

/-- C1, counterexample: the claim as stated is false.  The heuristic of
`cexM` is admissible (but not consistent), yet `solve` returns cost 12 for a
graph whose cheapest goal path costs 11: because the engine never re-expands
visited nodes, node B is closed via the direct cost-2 edge before the cheaper
route through A is found. -/
theorem admissible_not_sufficient_cex :
    Admissible cexM ∧
    solve cexM 10 CexNode.S =
      some (Except.ok (12, [CexNode.S, CexNode.B, CexNode.G])) ∧
    cexM.is_end CexNode.G = true ∧
    PathCost cexM CexNode.S CexNode.G 11 ∧
    ¬ (12 ≤ 11) :=
  ⟨cexM_admissible, rfl, rfl, cex_path11, by omega⟩

/-- C1 (amended: the heuristic must additionally be consistent): whenever
`solve` returns `Ok (cost, path)`, `cost` is realised by a path from the
start to a goal node and is minimal among the costs of all paths from the
start to any node satisfying `is_end`. -/
theorem solve_ok_cost_minimal {S : Type} [DecidableEq S] (M : State S)
    (fuel : Nat) (start : S) (c : Nat) (p : List S)
    (hadm : Admissible M) (hcons : Consistent M)
    (h : solve M fuel start = some (Except.ok (c, p))) :
    (∃ u, M.is_end u = true ∧ PathCost M start u c) ∧
    ∀ u k, M.is_end u = true → PathCost M start u k → c ≤ k :=
  ⟨solve_ok_pathCost M fuel start c p h,
    solve_ok_min M fuel start c p hadm hcons h⟩

/-- Witness for C1 on the concrete line graph. -/
theorem solve_ok_cost_minimal_witness :
    (∃ u, lineM.is_end u = true ∧ PathCost lineM LineNode.A u 3) ∧
    ∀ u k, lineM.is_end u = true → PathCost lineM LineNode.A u k → 3 ≤ k :=
  solve_ok_cost_minimal lineM 10 LineNode.A 3
    [LineNode.A, LineNode.B, LineNode.C, LineNode.D]
    lineM_admissible lineM_consistent rfl

/-- C2: the frontier insertion used by `solve` behaves as `push_or_improve`:
a node with no entry is inserted at the back; an existing entry with
better-or-equal estimated total cost is kept unchanged; an existing entry
with strictly worse estimated total cost is replaced by the new entry,
including its accumulated cost and recorded path. -/
theorem push_or_improve_spec {S : Type} [DecidableEq S] (M : State S)
    (q : List (Entry S)) (c : Entry S) :
    ((∀ x ∈ q, x.state ≠ c.state) → push_or_improve M q c = q ++ [c]) ∧
    (∀ e ∈ q, e.state = c.state → NodupStates q →
      e.priority M ≤ c.priority M → push_or_improve M q c = q) ∧
    (∀ e ∈ q, e.state = c.state → NodupStates q →
      c.priority M < e.priority M →
      push_or_improve M q c =
        q.map fun x => if x.state = c.state then c else x) := by
  refine ⟨?_, ?_, ?_⟩
  · intro hno
    unfold push_or_improve
    rw [if_neg]
    intro hmem
    rcases List.mem_map.mp hmem with ⟨x, hx, hxs⟩
    exact hno x hx hxs
  · intro e he hes hnd hle
    unfold push_or_improve
    rw [if_pos (hes ▸ List.mem_map_of_mem Entry.state he)]
    have hid : ∀ x ∈ q,
        (if x.state = c.state ∧ c.priority M < x.priority M then c else x)
          = id x := by
      intro x hx
      rw [if_neg]
      · rfl
      · rintro ⟨hxs, hlt⟩
        have hnd2 : (q.map Entry.state).Nodup := hnd
        have hxe : x = e :=
          List.inj_on_of_nodup_map hnd2 hx he (hxs.trans hes.symm)
        subst hxe
        omega
    rw [List.map_congr_left hid, List.map_id]
  · intro e he hes hnd hlt
    unfold push_or_improve
    rw [if_pos (hes ▸ List.mem_map_of_mem Entry.state he)]
    apply List.map_congr_left
    intro x hx
    by_cases hxs : x.state = c.state
    · have hnd2 : (q.map Entry.state).Nodup := hnd
      have hxe : x = e :=
        List.inj_on_of_nodup_map hnd2 hx he (hxs.trans hes.symm)
      subst hxe
      rw [if_pos ⟨hxs, hlt⟩, if_pos hxs]
    · rw [if_neg (fun hc => hxs hc.1), if_neg hxs]

/-- Witness for C2: insertion, keep, and replacement on concrete frontiers. -/
theorem push_or_improve_spec_witness :
    push_or_improve lineM [⟨0, LineNode.A, [LineNode.A]⟩]
        ⟨1, LineNode.B, [LineNode.A, LineNode.B]⟩ =
      [⟨0, LineNode.A, [LineNode.A]⟩,
        ⟨1, LineNode.B, [LineNode.A, LineNode.B]⟩] ∧
    push_or_improve lineM [⟨0, LineNode.A, [LineNode.A]⟩]
        ⟨5, LineNode.A, [LineNode.A]⟩ = [⟨0, LineNode.A, [LineNode.A]⟩] ∧
    push_or_improve lineM [⟨5, LineNode.A, [LineNode.A]⟩]
        ⟨0, LineNode.A, []⟩ = [⟨0, LineNode.A, []⟩] :=
  ⟨(push_or_improve_spec lineM _ _).1 (by decide),
    (push_or_improve_spec lineM _ _).2.1 ⟨0, LineNode.A, [LineNode.A]⟩
      (List.mem_singleton.mpr rfl) rfl (by simp [NodupStates, statesOf])
      (by decide),
    (push_or_improve_spec lineM _ _).2.2 ⟨5, LineNode.A, [LineNode.A]⟩
      (List.mem_singleton.mpr rfl) rfl (by simp [NodupStates, statesOf])
      (by decide)⟩

/-- C3: the frontier keeps at most one entry per node (preserved from the
initial frontier through every expansion step, keyed by node identity only),
the surviving entry for a node carries the lowest estimated total cost seen
so far for it, and `pop_min` removes and returns an entry of smallest
estimated total cost, returning nothing exactly when the frontier is empty. -/
theorem frontier_invariant_spec {S : Type} [DecidableEq S] (M : State S) :
    (∀ q : List (Entry S), pop_min M q = none ↔ q = []) ∧
    (∀ (q rest : List (Entry S)) (e : Entry S),
      pop_min M q = some (e, rest) →
      e ∈ q ∧ (∀ x ∈ q, e.priority M ≤ x.priority M) ∧ q.Perm (e :: rest)) ∧
    (∀ (q : List (Entry S)) (c x : Entry S), x ∈ q → x.state = c.state →
      ∃ y ∈ push_or_improve M q c, y.state = c.state ∧
        y.priority M = min (x.priority M) (c.priority M)) ∧
    (∀ start : S, NodupStates [(⟨0, start, [start]⟩ : Entry S)]) ∧
    (∀ (q rest : List (Entry S)) (E : List (S × Nat)) (e : Entry S),
      NodupStates q → pop_min M q = some (e, rest) →
      NodupStates (expandEntry M E e rest)) := by
  refine ⟨pop_min_eq_none_iff M, ?_, ?_, ?_, ?_⟩
  · intro q rest e h
    rcases pop_min_spec M q rest e h with ⟨h1, h2, h3, h4⟩
    exact ⟨h1, h4, h2⟩
  · intro q c x hx hxs
    exact push_or_improve_priority_min M q c x hx hxs
  · intro start
    simp [NodupStates, statesOf]
  · intro q rest E e hnd hp
    exact pushCandidates_nodupStates M E e _ rest
      (pop_min_nodupStates M q rest e hp hnd)

/-- Witness for C3 on concrete frontiers. -/
theorem frontier_invariant_spec_witness :
    pop_min lineM ([] : List (Entry LineNode)) = none ∧
    ((⟨0, LineNode.A, [LineNode.A]⟩ : Entry LineNode) ∈
        [(⟨0, LineNode.A, [LineNode.A]⟩ : Entry LineNode)] ∧
      (∀ x ∈ [(⟨0, LineNode.A, [LineNode.A]⟩ : Entry LineNode)],
        Entry.priority lineM ⟨0, LineNode.A, [LineNode.A]⟩ ≤
          x.priority lineM) ∧
      List.Perm [(⟨0, LineNode.A, [LineNode.A]⟩ : Entry LineNode)]
        (⟨0, LineNode.A, [LineNode.A]⟩ :: [])) ∧
    (∃ y ∈ push_or_improve lineM [⟨5, LineNode.A, [LineNode.A]⟩]
        ⟨0, LineNode.A, []⟩, y.state = LineNode.A ∧
      y.priority lineM =
        min (Entry.priority lineM ⟨5, LineNode.A, [LineNode.A]⟩)
          (Entry.priority lineM ⟨0, LineNode.A, []⟩)) :=
  ⟨((frontier_invariant_spec lineM).1 []).mpr rfl,
    (frontier_invariant_spec lineM).2.1 _ [] _ rfl,
    (frontier_invariant_spec lineM).2.2.1 [⟨5, LineNode.A, [LineNode.A]⟩]
      ⟨0, LineNode.A, []⟩ ⟨5, LineNode.A, [LineNode.A]⟩
      (List.mem_singleton.mpr rfl) rfl⟩

/-- C4: once a node is visited, the expansion loop never inserts an entry for
it into the frontier again, and `successors` is invoked at most once per
distinct node in any run of `solve` (the calls trace has no duplicates). -/
theorem no_reexpansion {S : Type} [DecidableEq S] (M : State S) :
    (∀ (fuel : Nat) (start : S), (solveCalls M fuel start).Nodup) ∧
    (∀ (E : List (S × Nat)) (e : Entry S) (q : List (Entry S)) (s : S),
      s ∈ E.map Prod.fst → s ∉ statesOf q →
      s ∉ statesOf (expandEntry M E e q)) :=
  ⟨fun fuel start => solve_calls_nodup M fuel start,
    fun E e q s hv hq => pushCandidates_not_mem_of_visited M E e _ q s hv hq⟩

/-- Witness for C4 on the concrete line graph. -/
theorem no_reexpansion_witness :
    (solveCalls lineM 10 LineNode.A).Nodup ∧
    LineNode.A ∉ statesOf (expandEntry lineM [(LineNode.A, 0)]
      ⟨0, LineNode.A, [LineNode.A]⟩ []) :=
  ⟨(no_reexpansion lineM).1 10 LineNode.A,
    (no_reexpansion lineM).2 [(LineNode.A, 0)] ⟨0, LineNode.A, [LineNode.A]⟩
      [] LineNode.A (by decide) (by decide)⟩

/-- C5: when `solve` fails, the returned visited set contains exactly the
nodes reachable from the start via chains of successor edges. -/
theorem visited_closure_on_failure {S : Type} [DecidableEq S] (M : State S)
    (fuel : Nat) (start : S) (v : List S)
    (h : solve M fuel start = some (Except.error v)) :
    ∀ s, s ∈ v ↔ ∃ c, PathCost M start s c :=
  solve_error_reach_iff M fuel start v h

/-- Witness for C5 on the disconnected two-node graph. -/
theorem visited_closure_on_failure_witness :
    false ∈ [false] ↔ ∃ c, PathCost discM false false c :=
  visited_closure_on_failure discM 5 false [false] rfl false

/-- C6: `solve` has exactly one failure outcome, returned as data — the
result is always fuel exhaustion, success, or `Err`; on `Err` the payload is
the complete list of expanded nodes (none of which satisfies `is_end`, so the
frontier was exhausted without popping a goal); and on the concrete
disconnected two-node graph, `solve` from A fails with visited set `{A}`. -/
theorem error_model :
    (∀ (S : Type) (inst : DecidableEq S) (M : State S) (fuel : Nat)
      (start : S) (v : List S),
      solve M fuel start = some (Except.error v) →
      (∀ s ∈ v, M.is_end s = false) ∧ solveCalls M fuel start = v.reverse) ∧
    (∀ (S : Type) (inst : DecidableEq S) (M : State S) (fuel : Nat)
      (start : S),
      solve M fuel start = none ∨
      (∃ c p, solve M fuel start = some (Except.ok (c, p))) ∨
      (∃ v, solve M fuel start = some (Except.error v))) ∧
    solve discM 5 false = some (Except.error [false]) ∧
    discM.is_end true = true ∧ discM.is_end false = false ∧
    discM.successors false = [] := by
  refine ⟨?_, ?_, rfl, rfl, rfl, rfl⟩
  · intro S inst M fuel start v h
    exact ⟨solve_error_endFree M fuel start v h,
      solve_error_calls M fuel start v h⟩
  · intro S inst M fuel start
    rcases hr : solve M fuel start with _ | r
    · exact Or.inl rfl
    · rcases r with v | cp
      · exact Or.inr (Or.inr ⟨v, rfl⟩)
      · exact Or.inr (Or.inl ⟨cp.1, cp.2, rfl⟩)

/-- Witness for C6 on the disconnected two-node graph. -/
theorem error_model_witness :
    (∀ s ∈ [false], discM.is_end s = false) ∧
      solveCalls discM 5 false = [false].reverse :=
  error_model.1 Bool instDecidableEqBool discM 5 false [false] rfl

/-- C7: if the start node satisfies `is_end`, `solve` returns
`Ok (0, [start])` and never invokes `successors` on any node. -/
theorem trivial_goal {S : Type} [DecidableEq S] (M : State S) (fuel : Nat)
    (start : S) (hend : M.is_end start = true) (hfuel : 1 ≤ fuel) :
    solve M fuel start = some (Except.ok (0, [start])) ∧
      solveCalls M fuel start = [] :=
  solve_trivial_goal M fuel start hend hfuel

/-- Witness for C7: starting at the goal of the line graph. -/
theorem trivial_goal_witness :
    solve lineM 5 LineNode.D = some (Except.ok (0, [LineNode.D])) ∧
      solveCalls lineM 5 LineNode.D = [] :=
  trivial_goal lineM 5 LineNode.D rfl (by omega)

/-- C8: on the 4-node line graph A→B→C→D with unit weights, heuristic equal
to the remaining hops to D, and `is_end` true only at D, `solve A` returns
`Ok (3, [A, B, C, D])`. -/
theorem line_graph_scenario :
    solve lineM 10 LineNode.A =
      some (Except.ok (3, [LineNode.A, LineNode.B, LineNode.C, LineNode.D])) :=
  rfl

/-- C9: with the all-zero heuristic, any terminated run of `solve` produces
exactly what a uniform-cost (Dijkstra) search specifies: on success the
minimum goal-path cost (realised by some path), and failure exactly when no
goal is reachable, with the visited set being the reachable set. -/
theorem heuristic_zero_dijkstra {S : Type} [DecidableEq S] (M : State S)
    (fuel : Nat) (start : S) (r : Except (List S) (Nat × List S))
    (h0 : ∀ s, M.heuristic s = 0) (h : solve M fuel start = some r) :
    dijkstraResultSpec M start r := by
  cases r with
  | ok cp =>
    rcases cp with ⟨c, p⟩
    exact ⟨solve_ok_pathCost M fuel start c p h,
      fun u k hu hk => solve_ok_min M fuel start c p
        (admissible_of_zero M h0) (consistent_of_zero M h0) h u k hu hk⟩
  | error v =>
    exact ⟨solve_error_no_goal M fuel start v h,
      solve_error_reach_iff M fuel start v h⟩

/-- Witness for C9: the line graph with the all-zero heuristic. -/
theorem heuristic_zero_dijkstra_witness :
    dijkstraResultSpec lineM0 LineNode.A
      (Except.ok (3, [LineNode.A, LineNode.B, LineNode.C, LineNode.D])) :=
  heuristic_zero_dijkstra lineM0 10 LineNode.A _ (fun _ => rfl) rfl

/-- C10: a successful `solve` returns a non-empty path starting at the start
node and ending at a goal node, whose consecutive elements are connected by
successor edges, and whose edge weights sum to the returned cost. -/
theorem path_well_formed {S : Type} [DecidableEq S] (M : State S)
    (fuel : Nat) (start : S) (c : Nat) (p : List S)
    (h : solve M fuel start = some (Except.ok (c, p))) :
    p ≠ [] ∧ p.head? = some start ∧
    (∃ u, p.getLast? = some u ∧ M.is_end u = true) ∧
    p.Chain' (fun a b => ∃ w, (w, b) ∈ M.successors a) ∧
    RouteCost M p c := by
  rcases solve_ok_route M fuel start c p h with ⟨hrc, hhead, u, hlast, hu⟩
  exact ⟨hrc.ne_nil, hhead, ⟨u, hlast, hu⟩, hrc.chain, hrc⟩

/-- Witness for C10 on the concrete line graph. -/
theorem path_well_formed_witness :
    [LineNode.A, LineNode.B, LineNode.C, LineNode.D] ≠ [] ∧
    [LineNode.A, LineNode.B, LineNode.C, LineNode.D].head? =
      some LineNode.A ∧
    (∃ u, [LineNode.A, LineNode.B, LineNode.C, LineNode.D].getLast? =
      some u ∧ lineM.is_end u = true) ∧
    [LineNode.A, LineNode.B, LineNode.C, LineNode.D].Chain'
      (fun a b => ∃ w, (w, b) ∈ lineM.successors a) ∧
    RouteCost lineM [LineNode.A, LineNode.B, LineNode.C, LineNode.D] 3 :=
  path_well_formed lineM 10 LineNode.A 3
    [LineNode.A, LineNode.B, LineNode.C, LineNode.D] rfl

end AStar
